import Mathlib

/-!
Verification of the text-sanitization core and pipeline sequencing of the
video-to-text repository.

The development shallowly embeds the Python sources:
  * `sanitize_text`          from `main.py` (ordered, case-insensitive
    replace-all over the Term Map, then the advanced-pattern pass);
  * `create_reverse_mapping` and `reverse_sanitize_text` from
    `src/reverse_sanitize.py` (first-wins reverse map; word-boundary
    delimited, case-sensitive replace-all);
  * `CONFIDENTIAL_TERMS` / `ADVANCED_PATTERNS` from `confidential_terms.py`;
  * `complete_pipeline` from `process_video_complete.py` and
    `src/process_video_complete.py`, including the dynamic typing of the
    value returned by `transcribe_video` (`main.py`).

Strings are modelled as `List Char`.  `re.sub` on a literal pattern is
modelled as a leftmost, non-overlapping replace-all scan; the scans are
written with an explicit fuel argument (the length of the scanned text is
always enough fuel) so that every definition evaluates by kernel reduction.
-/

/-- Case folding used to model `re.IGNORECASE` matching.  ASCII letters are
lowered by `Char.toLower`; for the Vietnamese letters of the Term Map
(Latin Extended Additional, U+1E00 to U+1EFF) the uppercase letter is the
even code point and the lowercase letter the following odd one. -/
def foldChar (c : Char) : Char :=
  if 0x1E00 ≤ c.toNat ∧ c.toNat ≤ 0x1EFF ∧ c.toNat % 2 = 0 then
    Char.ofNat (c.toNat + 1)
  else
    c.toLower

/-- Word characters for the regex `\b` assertion (`\w` on the alphabets the
repository uses: ASCII alphanumerics, underscore, Latin-1 letters and the
Latin Extended ranges covering Vietnamese). -/
def isWordChar (c : Char) : Bool :=
  c.isAlphanum || c == '_' ||
  (0xC0 ≤ c.toNat && c.toNat ≤ 0x24F && c.toNat != 0xD7 && c.toNat != 0xF7) ||
  (0x1E00 ≤ c.toNat && c.toNat ≤ 0x1EFF)

/-- `pat` matches case-insensitively at the beginning of `s`. -/
def matchesCI : List Char → List Char → Bool
  | [], _ => true
  | _ :: _, [] => false
  | p :: ps, c :: cs => (foldChar p == foldChar c) && matchesCI ps cs

/-- `pat` matches case-sensitively at the beginning of `s`. -/
def startsWith : List Char → List Char → Bool
  | [], _ => true
  | _ :: _, [] => false
  | p :: ps, c :: cs => (p == c) && startsWith ps cs

/-- `pat` occurs case-insensitively somewhere in `s`. -/
def hasOccCI (pat : List Char) : List Char → Bool
  | [] => matchesCI pat []
  | c :: cs => matchesCI pat (c :: cs) || hasOccCI pat cs

/-- `pat` occurs case-sensitively somewhere in `s`. -/
def hasSub (pat : List Char) : List Char → Bool
  | [] => startsWith pat []
  | c :: cs => startsWith pat (c :: cs) || hasSub pat cs

/-- Fueled scan modelling `re.sub(pat, rep, s, flags=re.IGNORECASE)` for a
literal pattern: leftmost, non-overlapping, replace all. -/
def subCIF (pat rep : List Char) : Nat → List Char → List Char
  | 0, s => s
  | _ + 1, [] => []
  | fuel + 1, c :: cs =>
    if !pat.isEmpty && matchesCI pat (c :: cs) then
      rep ++ subCIF pat rep fuel ((c :: cs).drop pat.length)
    else
      c :: subCIF pat rep fuel cs

/-- `re.sub(pat, rep, s, flags=re.IGNORECASE)` for a literal pattern. -/
def subCI (pat rep s : List Char) : List Char :=
  subCIF pat rep s.length s

/-- Trailing `\b` test: `lastW` is the word status of the character just
before this position, `rest` is the remaining text. -/
def wbAfter (lastW : Bool) : List Char → Bool
  | [] => lastW
  | d :: _ => lastW != isWordChar d

/-- The regex `\b code \b` matches at the beginning of `s`, where `prevW` is
the word status of the character preceding `s` (false at start of text). -/
def wbMatchAt (code : List Char) (prevW : Bool) (s : List Char) : Bool :=
  match code with
  | [] => false
  | c0 :: _ =>
    (prevW != isWordChar c0) && startsWith code s &&
      wbAfter (isWordChar (code.getLastD c0)) (s.drop code.length)

/-- Some word-boundary-delimited, case-sensitive occurrence of `code` exists
in `s`, scanned with incoming word status `prevW`. -/
def hasWB (code : List Char) (prevW : Bool) : List Char → Bool
  | [] => false
  | c :: cs => wbMatchAt code prevW (c :: cs) || hasWB code (isWordChar c) cs

/-- Fueled scan modelling `re.sub(r'\b' + re.escape(code) + r'\b', rep, s)`. -/
def subWBF (code rep : List Char) : Nat → Bool → List Char → List Char
  | 0, _, s => s
  | _ + 1, _, [] => []
  | fuel + 1, prevW, c :: cs =>
    if wbMatchAt code prevW (c :: cs) then
      rep ++ subWBF code rep fuel (isWordChar (code.getLastD c))
        ((c :: cs).drop code.length)
    else
      c :: subWBF code rep fuel (isWordChar c) cs

/-- `re.sub(r'\b' + re.escape(code) + r'\b', rep, s)` from start of text. -/
def subWB (code rep s : List Char) : List Char :=
  subWBF code rep s.length false s

/-- Removes every occurrence of the two-character sequence `\b` from a
pattern, modelling `original_pattern.replace(r'\b', '')`. -/
def stripBoundaryMarks : List Char → List Char
  | '\\' :: 'b' :: rest => stripBoundaryMarks rest
  | c :: rest => c :: stripBoundaryMarks rest
  | [] => []

/-- Python's `str.strip()`: remove leading and trailing whitespace. -/
def pyStrip (s : List Char) : List Char :=
  ((s.dropWhile Char.isWhitespace).reverse.dropWhile Char.isWhitespace).reverse

/-- The default Term Map of `confidential_terms.py` (`CONFIDENTIAL_TERMS`),
an insertion-ordered dictionary of pattern/replacement pairs. -/
def CONFIDENTIAL_TERMS : List (String × String) :=
  [(r"Anh chị", r"AC"), (r"anh chị", r"AC"),
   (r"Kiến thức", r"KT"), (r"kiến thức", r"KT")]

/-- The default advanced pattern list of `confidential_terms.py`
(`ADVANCED_PATTERNS`), empty by default. -/
def ADVANCED_PATTERNS : List (String × String) := []

/-- One Term-Map pass of `sanitize_text`: the patterns are applied
sequentially, in declared order, each as a case-insensitive replace-all on
the already-partially-substituted text. -/
def sanitizeWith (terms : List (String × String)) (t : List Char) : List Char :=
  terms.foldl (fun s pr => subCI pr.1.data pr.2.data s) t

/-- One advanced-pattern pass of `sanitize_text`: case-sensitive
replace-all, in declared order (the default list is empty). -/
def sanitizeAdvanced (pats : List (String × String)) (t : List Char) : List Char :=
  pats.foldl (fun s pr => subCIF pr.1.data pr.2.data s.length s) t

/-- `sanitize_text` from `main.py`: Term-Map pass, then advanced pass. -/
def sanitize_text (text : String) : String :=
  ⟨sanitizeAdvanced ADVANCED_PATTERNS (sanitizeWith CONFIDENTIAL_TERMS text.data)⟩

/-- `create_reverse_mapping` from `src/reverse_sanitize.py`: for each
(pattern, code) of the Term Map in order, strip `\b` markers and
whitespace from the pattern, and insert `code -> term` only if the code is
not already a key (first occurrence wins).  The source reads the module
level Term Map; here the map is the explicit argument it closes over. -/
def create_reverse_mapping (terms : List (String × String)) :
    List (String × String) :=
  terms.foldl
    (fun m pr =>
      if m.any (fun e => e.1 == pr.2) then m
      else m ++ [(pr.2, ⟨pyStrip (stripBoundaryMarks pr.1.data)⟩)])
    []

/-- `reverse_sanitize_text` from `src/reverse_sanitize.py`: rebuild the
reverse map from the Term Map, then for each `(code, original)` in order
replace all word-boundary-delimited, case-sensitive occurrences of the
code by the original term. -/
def reverse_sanitize_text (sanitized_text : String) : String :=
  ⟨(create_reverse_mapping CONFIDENTIAL_TERMS).foldl
    (fun s pr => subWB pr.1.data pr.2.data s) sanitized_text.data⟩

/-! ### The default Term Map's patterns and codes as character lists -/

def vnT1 : List Char := "Anh chị".data

def vnT1l : List Char := "anh chị".data

def vnT2 : List Char := "Kiến thức".data

def vnT2l : List Char := "kiến thức".data

def acCode : List Char := "AC".data

def ktCode : List Char := "KT".data

/-! ### Token texts for the canonical-casing round-trip theorem

A `Tok` list describes a text assembled from canonical Term-Map terms and
ordinary characters; `safeToks` delimits the class of such texts on which
the sanitize/restore round trip is exact: terms appear in their
first-declared casing, flanked by word boundaries, and every other
character can begin neither a term (case-insensitively, its case folding
is not that of a term's first letter) nor a code. -/

inductive Tok where
  | t1 : Tok
  | t2 : Tok
  | ch : Char → Tok
deriving DecidableEq

/-- The text a token denotes. -/
def renderTok : Tok → List Char
  | .t1 => vnT1
  | .t2 => vnT2
  | .ch c => [c]

/-- The text a token list denotes. -/
def render : List Tok → List Char
  | [] => []
  | t :: ts => renderTok t ++ render ts

/-- Token text after the first sanitize pass (`Anh chị` replaced). -/
def renderM1Tok : Tok → List Char
  | .t1 => acCode
  | .t2 => vnT2
  | .ch c => [c]

def renderM1 : List Tok → List Char
  | [] => []
  | t :: ts => renderM1Tok t ++ renderM1 ts

/-- Token text after the full sanitize pass (both terms replaced). -/
def renderSanTok : Tok → List Char
  | .t1 => acCode
  | .t2 => ktCode
  | .ch c => [c]

def renderSan : List Tok → List Char
  | [] => []
  | t :: ts => renderSanTok t ++ renderSan ts

/-- Token text after the first restore pass (`AC` restored). -/
def renderR1Tok : Tok → List Char
  | .t1 => vnT1
  | .t2 => ktCode
  | .ch c => [c]

def renderR1 : List Tok → List Char
  | [] => []
  | t :: ts => renderR1Tok t ++ renderR1 ts

/-- An ordinary character: its case folding is neither that of the first
letter of a term nor that of the first letter of a code. -/
def plainChar (c : Char) : Bool :=
  foldChar c != 'a' && foldChar c != 'k'

/-- The denoted text starts with a non-word character (or is empty). -/
def tokHeadNonW : List Tok → Bool
  | [] => true
  | .t1 :: _ => false
  | .t2 :: _ => false
  | .ch c :: _ => !isWordChar c

/-- Safe token lists: terms sit at word boundaries (`prevW` tracks the word
status of the preceding character) and ordinary characters are plain. -/
def safeToks : Bool → List Tok → Bool
  | _, [] => true
  | prevW, .t1 :: ts => !prevW && tokHeadNonW ts && safeToks true ts
  | prevW, .t2 :: ts => !prevW && tokHeadNonW ts && safeToks true ts
  | _, .ch c :: ts => plainChar c && safeToks (isWordChar c) ts

/-- The token list denoting the worked example of the specification. -/
def exToks : List Tok :=
  [.t1, .ch ' ', .ch 'h', .ch 'ọ', .ch 'c', .ch ' ', .t2]

/-! Example texts used in the statements below. -/

def exInput : String := "Anh chị học Kiến thức"

def exSanitized : String := "AC học KT"

def exCanon : String := "Anh chị"

def exLower : String := "anh chị"

def exKThuc : String := "Kiến thức"

def exKThucLower : String := "kiến thức"

def exAC : String := "AC"

def exKT : String := "KT"

def exKienX : String := "Kiến X"

def exFrame : String := "The ACs read my kt draft"

def exMismatch : String := "ac học kt"

/-- Term Map of the order-sensitivity scenario, longer pattern first. -/
def orderMapA : List (String × String) :=
  [(r"Kiến thức", r"KT"), (r"thức", r"X")]

/-- Term Map of the order-sensitivity scenario, shorter pattern first. -/
def orderMapB : List (String × String) :=
  [(r"thức", r"X"), (r"Kiến thức", r"KT")]

/-- A Python runtime value, as far as the pipeline's handling of the return
value of `transcribe_video` is concerned: a boolean, or a pair (the shape
the pipeline's tuple-unpacking assignment expects). -/
inductive PyVal where
  | pybool (b : Bool)
  | pypair (a b : String)
deriving DecidableEq

/-- Python's unpacking assignment `x, y = v` for two targets: succeeds on a
pair, raises `TypeError: cannot unpack non-iterable bool object` on a
boolean. -/
def unpackTwo : PyVal → Except String (String × String)
  | .pybool _ => .error "cannot unpack non-iterable bool object"
  | .pypair a b => .ok (a, b)

/-- Abstraction of everything outside the sequencer's own control flow: the
file system check, the transcription collaborator, the Ollama service and
model probes, and the two generation calls (`None` models their failure). -/
structure PipelineEnv where
  videoExists : Bool
  transcribeOk : Bool
  ollamaUp : Bool
  modelAvailable : Bool
  summaryResult : Option String
  translationResult : Option String
  videoBase : String
deriving DecidableEq

/-- `transcribe_video` from `main.py`: returns `False` when the video file
is missing or an exception occurs, `True` on success — a boolean either
way (the transcript files are written as a side effect, not returned). -/
def transcribe_video (env : PipelineEnv) : PyVal :=
  .pybool (env.videoExists && env.transcribeOk)

/-- `safe_lang = translate_to.lower().replace(' ', '_')`. -/
def safeLang (lang : String) : String :=
  ⟨lang.data.map (fun c => if c == ' ' then '_' else c.toLower)⟩

namespace src_process_video_complete

/-- `complete_pipeline` from `src/process_video_complete.py` (the variant
with translation support).  Returns `none` for the failure sentinel
`None`, otherwise the `results` mapping of stage names to artifact paths.
The assignment `original_txt, sanitized_txt = transcribe_video(...)` is
the `unpackTwo` of the boolean produced by `transcribe_video`; its
`TypeError` is caught by the transcription stage handler, which returns
`None`. -/
def complete_pipeline (env : PipelineEnv) (skip_summary keep_sanitized : Bool)
    (translate_to : Option String) : Option (List (String × String)) :=
  if !env.videoExists then none
  else
    match unpackTwo (transcribe_video env) with
    | .error _ => none
    | .ok (original_txt, sanitized_txt) =>
      let results : List (String × String) :=
        [(r"transcription_original", original_txt),
         (r"transcription_sanitized", sanitized_txt)]
      -- STEP 2 preconditions: Ollama service reachable, model present.
      let skip2 := skip_summary || !env.ollamaUp || !env.modelAvailable
      -- STEP 2/3: summary and (unless kept sanitized) restored summary.
      let summaryFailed := env.summaryResult.isNone
      let results :=
        if skip2 then results
        else
          match env.summaryResult with
          | none => results
          | some _ =>
            results ++
              [(r"summary_sanitized", env.videoBase ++ r"_summary_sanitized.txt")] ++
              (if keep_sanitized then []
               else [(r"summary_restored", env.videoBase ++ r"_summary_restored.txt")])
      let skipFinal := skip2 || summaryFailed
      -- STEP 4 preconditions are re-checked only if summarization was skipped.
      let translate2 : Option String :=
        match translate_to with
        | none => none
        | some lang =>
          if skipFinal && (!env.ollamaUp || !env.modelAvailable) then none
          else some lang
      -- STEP 4/5: translation and (unless kept sanitized) restored translation.
      let results :=
        match translate2 with
        | none => results
        | some lang =>
          match env.translationResult with
          | none => results
          | some _ =>
            results ++
              [(r"translation_sanitized",
                env.videoBase ++ r"_translation_" ++ safeLang lang ++ r"_sanitized.txt")] ++
              (if keep_sanitized then []
               else
                 [(r"translation_restored",
                   env.videoBase ++ r"_translation_" ++ safeLang lang ++ r"_restored.txt")])
      some results

end src_process_video_complete

namespace process_video_complete

/-- `complete_pipeline` from the repository root `process_video_complete.py`
(no translation support); it performs the same tuple unpacking of the
boolean returned by `transcribe_video`. -/
def complete_pipeline (env : PipelineEnv) (skip_summary keep_sanitized : Bool) :
    Option (List (String × String)) :=
  if !env.videoExists then none
  else
    match unpackTwo (transcribe_video env) with
    | .error _ => none
    | .ok (original_txt, sanitized_txt) =>
      let results : List (String × String) :=
        [(r"transcription_original", original_txt),
         (r"transcription_sanitized", sanitized_txt)]
      let skip2 := skip_summary || !env.ollamaUp || !env.modelAvailable
      let results :=
        if skip2 then results
        else
          match env.summaryResult with
          | none => results
          | some _ =>
            results ++
              [(r"summary_sanitized", env.videoBase ++ r"_summary_sanitized.txt")] ++
              (if keep_sanitized then []
               else [(r"summary_restored", env.videoBase ++ r"_summary_restored.txt")])
      some results

end process_video_complete

/-! ### Example pipeline environments -/

/-- A healthy environment: the video exists, transcription succeeds, the
Ollama service and model are available, and both generation calls
succeed. -/
def exEnv : PipelineEnv :=
  ⟨true, true, true, true, some (r"a summary"), some (r"a translation"),
    r"video"⟩

/-- The environment of the pipeline-skip scenario: the video exists and
transcription succeeds, but the summarization collaborator is unavailable
while translation is requested and would succeed. -/
def c4Env : PipelineEnv :=
  ⟨true, true, false, false, none, some (r"a translation"), r"video"⟩

/-! ### Generic facts about case-insensitive matching and replacement -/

theorem matchesCI_nil_iff (p : List Char) : matchesCI p [] = true ↔ p = [] := by
  cases p <;> simp [matchesCI]

theorem matchesCI_length {p s : List Char} (h : matchesCI p s = true) :
    p.length ≤ s.length := by
  induction p generalizing s with
  | nil => simp
  | cons a p ih =>
    cases s with
    | nil => simp [matchesCI] at h
    | cons c cs =>
      simp only [matchesCI, Bool.and_eq_true] at h
      simpa [List.length_cons] using Nat.succ_le_succ (ih h.2)

theorem matchesCI_self_append (p t : List Char) : matchesCI p (p ++ t) = true := by
  induction p with
  | nil => simp [matchesCI]
  | cons a p ih => simp [matchesCI, ih]

theorem matchesCI_congr {p q : List Char} (h : p.map foldChar = q.map foldChar)
    (s : List Char) : matchesCI p s = matchesCI q s := by
  induction p generalizing q s with
  | nil =>
    cases q with
    | nil => rfl
    | cons b q => simp at h
  | cons a p ih =>
    cases q with
    | nil => simp at h
    | cons b q =>
      simp only [List.map_cons, List.cons.injEq] at h
      cases s with
      | nil => rfl
      | cons c cs => simp [matchesCI, h.1, ih h.2]

theorem matchesCI_append_extend {p u : List Char} (v : List Char)
    (h : matchesCI p u = true) : matchesCI p (u ++ v) = true := by
  induction p generalizing u with
  | nil => simp [matchesCI]
  | cons a p ih =>
    cases u with
    | nil => simp [matchesCI] at h
    | cons c cs =>
      simp only [matchesCI, Bool.and_eq_true] at h
      simp [matchesCI, h.1, ih h.2]

theorem matchesCI_append_split {p u v : List Char}
    (h : matchesCI p (u ++ v) = true) :
    matchesCI (p.take u.length) u = true ∧
      matchesCI (p.drop u.length) v = true := by
  induction u generalizing p with
  | nil => simpa [matchesCI] using h
  | cons c u ih =>
    cases p with
    | nil => simp [matchesCI]
    | cons a p =>
      simp only [List.cons_append, matchesCI, Bool.and_eq_true] at h
      obtain ⟨h1, h2⟩ := h
      obtain ⟨h3, h4⟩ := ih h2
      exact ⟨by simp [List.take, matchesCI, h1, h3], by simpa using h4⟩

theorem matchesCI_swap {p s : List Char} (h : matchesCI p s = true)
    (hl : s.length ≤ p.length) : matchesCI s p = true := by
  induction p generalizing s with
  | nil =>
    cases s with
    | nil => rfl
    | cons c cs => simp at hl
  | cons a p ih =>
    cases s with
    | nil => rfl
    | cons c cs =>
      simp only [matchesCI, Bool.and_eq_true, beq_iff_eq] at h ⊢
      exact ⟨h.1.symm, ih h.2 (by simpa using hl)⟩

theorem matchesCI_of_take {p s : List Char} {n : Nat}
    (h : matchesCI p (s.take n) = true) : matchesCI p s = true := by
  induction p generalizing s n with
  | nil => rfl
  | cons a p ih =>
    cases s with
    | nil => simpa using h
    | cons c cs =>
      cases n with
      | zero => simp [matchesCI] at h
      | succ m =>
        simp only [List.take, matchesCI, Bool.and_eq_true] at h
        simp [matchesCI, h.1, ih h.2]

theorem hasOccCI_of_matchesCI {p s : List Char} (h : matchesCI p s = true) :
    hasOccCI p s = true := by
  cases s with
  | nil => simpa [hasOccCI] using h
  | cons c cs => simp [hasOccCI, h]

theorem hasOccCI_cons_of {p : List Char} (c : Char) {cs : List Char}
    (h : hasOccCI p cs = true) : hasOccCI p (c :: cs) = true := by
  simp [hasOccCI, h]

theorem hasOccCI_of_drop {p s : List Char} {n : Nat}
    (h : hasOccCI p (s.drop n) = true) : hasOccCI p s = true := by
  induction s generalizing n with
  | nil => simpa using h
  | cons c cs ih =>
    cases n with
    | zero => simpa using h
    | succ m => exact hasOccCI_cons_of c (ih (by simpa using h))

theorem matchesCI_drop_of_hasOccCI {p s : List Char} (h : hasOccCI p s = true) :
    ∃ n, matchesCI p (s.drop n) = true := by
  induction s with
  | nil => exact ⟨0, by simpa [hasOccCI] using h⟩
  | cons c cs ih =>
    simp only [hasOccCI, Bool.or_eq_true] at h
    rcases h with h | h
    · exact ⟨0, by simpa using h⟩
    · obtain ⟨n, hn⟩ := ih h
      exact ⟨n + 1, by simpa using hn⟩

theorem exists_drop_cons {α : Type} (l : List α) (k : Nat) (hk : k < l.length) :
    ∃ a, l.drop k = a :: l.drop (k + 1) := by
  induction l generalizing k with
  | nil => simp at hk
  | cons b l ih =>
    cases k with
    | zero => exact ⟨b, rfl⟩
    | succ m => exact ih m (by simpa using hk)

theorem matchesCI_nil_of_ne {p : List Char} (hp : p ≠ []) :
    matchesCI p [] = false := by
  cases p with
  | nil => exact absurd rfl hp
  | cons a q => rfl

theorem hasOccCI_nil_of_ne {p : List Char} (hp : p ≠ []) :
    hasOccCI p [] = false := by
  simpa [hasOccCI] using matchesCI_nil_of_ne hp

/-- If a pattern never occurs in the text, the replace-all scan is the
identity (for any amount of fuel). -/
theorem subCIF_id_of_noOcc {q : List Char} (r : List Char) {s : List Char}
    (h : hasOccCI q s = false) : ∀ fuel, subCIF q r fuel s = s := by
  intro fuel
  induction s generalizing fuel with
  | nil => cases fuel <;> rfl
  | cons c cs ih =>
    cases fuel with
    | zero => rfl
    | succ f =>
      simp only [hasOccCI, Bool.or_eq_false_iff] at h
      simp only [subCIF, h.1, Bool.and_false, if_neg, Bool.false_eq_true,
        not_false_eq_true]
      rw [ih h.2]

/-- Decomposition of a case-insensitive occurrence in an appended text: it
lies in the left part, in the right part, or crosses the seam (starting at
position `j` of the left part). -/
theorem hasOccCI_append {p xs ys : List Char}
    (h : hasOccCI p (xs ++ ys) = true) :
    hasOccCI p xs = true ∨ hasOccCI p ys = true ∨
      ∃ j, j < xs.length ∧ xs.length - j < p.length ∧
        matchesCI (p.take (xs.length - j)) (xs.drop j) = true ∧
        matchesCI (p.drop (xs.length - j)) ys = true := by
  induction xs with
  | nil => exact Or.inr (Or.inl (by simpa using h))
  | cons c xs ih =>
    simp only [List.cons_append, hasOccCI, Bool.or_eq_true] at h
    rcases h with h | h
    · replace h : matchesCI p ((c :: xs) ++ ys) = true := h
      by_cases hlen : p.length ≤ (c :: xs).length
      · obtain ⟨h1, _⟩ := matchesCI_append_split h
        rw [List.take_of_length_le hlen] at h1
        exact Or.inl (hasOccCI_of_matchesCI h1)
      · obtain ⟨h1, h2⟩ := matchesCI_append_split h
        refine Or.inr (Or.inr ⟨0, by simp, by simpa using Nat.lt_of_not_le hlen, ?_, ?_⟩)
        · simpa using h1
        · simpa using h2
    · rcases ih h with h | h | ⟨j, hj, hlen, h1, h2⟩
      · exact Or.inl (hasOccCI_cons_of c h)
      · exact Or.inr (Or.inl h)
      · refine Or.inr (Or.inr ⟨j + 1, by simpa using Nat.succ_lt_succ hj, ?_, ?_, ?_⟩)
        · simpa using hlen
        · simpa using h1
        · simpa using h2

/-- Core invariant of the case-insensitive replace-all scan.  Replacing the
occurrences of a pattern `q` by `r` yields a text with no occurrence of
`p`, provided (i) every `p`-occurrence of the input starts at a position
where `q` also matches (so it gets consumed), and (ii) `r` can take no
part in a `p`-occurrence: `p` does not occur in `r`, no suffix of `r`
case-insensitively begins `p`, no proper suffix of `p` case-insensitively
begins `r`, and `r` does not occur inside `p`.  The second conjunct is the
strengthening that makes the induction go through: a partial match of a
proper suffix of `p` at the start of the output was already present at the
start of the input. -/
theorem subCIF_main (p q r : List Char) (hp : p ≠ []) (hq : q ≠ [])
    (hro : hasOccCI p r = false)
    (hsuf : ∀ j < r.length, r.length - j < p.length →
      matchesCI (p.take (r.length - j)) (r.drop j) = false)
    (htail : ∀ k < p.length, 0 < k → matchesCI (p.drop k) r = false)
    (hrp : hasOccCI r p = false) :
    ∀ fuel s, s.length ≤ fuel →
      (∀ n, matchesCI p (s.drop n) = true → matchesCI q (s.drop n) = true) →
      hasOccCI p (subCIF q r fuel s) = false ∧
        (∀ k < p.length, 0 < k →
          matchesCI (p.drop k) (subCIF q r fuel s) = true →
          matchesCI (p.drop k) s = true) := by
  have hqe : q.isEmpty = false := by
    cases q with
    | nil => exact absurd rfl hq
    | cons a l => rfl
  intro fuel
  induction fuel with
  | zero =>
    intro s hs _
    have hnil : s = [] := List.eq_nil_of_length_eq_zero (Nat.le_zero.mp hs)
    subst hnil
    refine ⟨hasOccCI_nil_of_ne hp, ?_⟩
    intro k hk _ hmk
    have : p.drop k = [] := (matchesCI_nil_iff _).mp hmk
    have : p.length ≤ k := by
      have := congrArg List.length this
      simp [List.length_drop] at this
      omega
    omega
  | succ f ih =>
    intro s hs hocc
    cases s with
    | nil =>
      refine ⟨hasOccCI_nil_of_ne hp, ?_⟩
      intro k hk _ hmk
      have : p.drop k = [] := (matchesCI_nil_iff _).mp hmk
      have := congrArg List.length this
      simp [List.length_drop] at this
      omega
    | cons c cs =>
      by_cases hm : matchesCI q (c :: cs) = true
      · -- the scan replaces a match of q here
        have hout : subCIF q r (f + 1) (c :: cs) =
            r ++ subCIF q r f ((c :: cs).drop q.length) := by
          simp only [subCIF, hqe, hm, Bool.not_false, Bool.and_self, if_true]
        have hql : 1 ≤ q.length := by
          cases q with
          | nil => exact absurd rfl hq
          | cons a l => simp
        have hlen' : ((c :: cs).drop q.length).length ≤ f := by
          simp only [List.length_drop, List.length_cons]
          simp only [List.length_cons] at hs
          omega
        have hocc' : ∀ n, matchesCI p (((c :: cs).drop q.length).drop n) = true →
            matchesCI q (((c :: cs).drop q.length).drop n) = true := by
          intro n
          rw [List.drop_drop]
          exact hocc (q.length + n)
        obtain ⟨ih1, ih2⟩ := ih ((c :: cs).drop q.length) hlen' hocc'
        rw [hout]
        constructor
        · cases hx : hasOccCI p (r ++ subCIF q r f ((c :: cs).drop q.length)) with
          | false => rfl
          | true =>
            exfalso
            rcases hasOccCI_append hx with h | h | ⟨j, hj, hjl, h1, h2⟩
            · rw [hro] at h; exact Bool.noConfusion h
            · rw [ih1] at h; exact Bool.noConfusion h
            · rw [hsuf j hj hjl] at h1; exact Bool.noConfusion h1
        · intro k hk hk0 hmk
          exfalso
          obtain ⟨h1, h2⟩ := matchesCI_append_split hmk
          by_cases hlc : (p.drop k).length ≤ r.length
          · rw [List.take_of_length_le hlc] at h1
            rw [htail k hk hk0] at h1
            exact Bool.noConfusion h1
          · have hlt : ((p.drop k).take r.length).length = r.length := by
              simp only [List.length_take]
              omega
            have hsw : matchesCI r ((p.drop k).take r.length) = true :=
              matchesCI_swap h1 (by omega)
            have : matchesCI r (p.drop k) = true := matchesCI_of_take hsw
            have : hasOccCI r p = true :=
              hasOccCI_of_drop (hasOccCI_of_matchesCI this)
            rw [hrp] at this
            exact Bool.noConfusion this
      · -- no match of q here: the character is preserved
        have hm' : matchesCI q (c :: cs) = false := by
          cases hmm : matchesCI q (c :: cs) with
          | false => rfl
          | true => exact absurd hmm hm
        have hout : subCIF q r (f + 1) (c :: cs) = c :: subCIF q r f cs := by
          simp only [subCIF, hm', Bool.and_false, if_neg, Bool.false_eq_true,
            not_false_eq_true]
        have hlen' : cs.length ≤ f := by
          simp only [List.length_cons] at hs
          omega
        obtain ⟨ih1, ih2⟩ := ih cs hlen' (fun n => hocc (n + 1))
        rw [hout]
        constructor
        · cases hx : hasOccCI p (c :: subCIF q r f cs) with
          | false => rfl
          | true =>
            exfalso
            simp only [hasOccCI, Bool.or_eq_true] at hx
            rcases hx with hx | hx
            · cases p with
              | nil => exact hp rfl
              | cons a pt =>
                simp only [matchesCI, Bool.and_eq_true] at hx
                obtain ⟨hfold, htm⟩ := hx
                cases pt with
                | nil =>
                  have : matchesCI q ((c :: cs).drop 0) = true :=
                    hocc 0 (by simp [matchesCI, hfold])
                  rw [List.drop_zero, hm'] at this
                  exact Bool.noConfusion this
                | cons b pt' =>
                  have hk1 : 1 < (a :: b :: pt').length := by simp
                  have htm' : matchesCI ((a :: b :: pt').drop 1)
                      (subCIF q r f cs) = true := htm
                  have := ih2 1 hk1 Nat.one_pos htm'
                  have hfull : matchesCI (a :: b :: pt') (c :: cs) = true := by
                    simp only [matchesCI, Bool.and_eq_true]
                    exact ⟨hfold, this⟩
                  have := hocc 0 (by simpa using hfull)
                  rw [List.drop_zero, hm'] at this
                  exact Bool.noConfusion this
            · rw [ih1] at hx; exact Bool.noConfusion hx
        · intro k hk hk0 hmk
          obtain ⟨a, ha⟩ := exists_drop_cons p k hk
          rw [ha] at hmk ⊢
          simp only [matchesCI, Bool.and_eq_true] at hmk ⊢
          refine ⟨hmk.1, ?_⟩
          by_cases hke : k + 1 < p.length
          · exact ih2 (k + 1) hke (Nat.succ_pos k) hmk.2
          · have : p.drop (k + 1) = [] := by
              have : p.length ≤ k + 1 := by omega
              simp [List.drop_eq_nil_iff, this]
            rw [this]
            rfl

/-- Replace-all removes every case-insensitive occurrence of its own
pattern, provided the replacement cannot recreate one. -/
theorem subCIF_kill (p r : List Char) (hp : p ≠ [])
    (hro : hasOccCI p r = false)
    (hsuf : ∀ j < r.length, r.length - j < p.length →
      matchesCI (p.take (r.length - j)) (r.drop j) = false)
    (htail : ∀ k < p.length, 0 < k → matchesCI (p.drop k) r = false)
    (hrp : hasOccCI r p = false)
    (fuel : Nat) (s : List Char) (hs : s.length ≤ fuel) :
    hasOccCI p (subCIF p r fuel s) = false :=
  (subCIF_main p p r hp hp hro hsuf htail hrp fuel s hs (fun _ h => h)).1

/-- Replace-all of an unrelated pattern cannot introduce an occurrence of
`p` when the replacement cannot take part in one. -/
theorem subCIF_preserve (p q r : List Char) (hp : p ≠ []) (hq : q ≠ [])
    (hro : hasOccCI p r = false)
    (hsuf : ∀ j < r.length, r.length - j < p.length →
      matchesCI (p.take (r.length - j)) (r.drop j) = false)
    (htail : ∀ k < p.length, 0 < k → matchesCI (p.drop k) r = false)
    (hrp : hasOccCI r p = false)
    (fuel : Nat) (s : List Char) (hs : s.length ≤ fuel)
    (hno : hasOccCI p s = false) :
    hasOccCI p (subCIF q r fuel s) = false :=
  (subCIF_main p q r hp hq hro hsuf htail hrp fuel s hs
    (fun n hmn => by
      exfalso
      have : hasOccCI p s = true :=
        hasOccCI_of_drop (hasOccCI_of_matchesCI hmn)
      rw [hno] at this
      exact Bool.noConfusion this)).1

theorem hasOccCI_congr {p q : List Char} (h : p.map foldChar = q.map foldChar)
    (s : List Char) : hasOccCI p s = hasOccCI q s := by
  induction s with
  | nil => simp [hasOccCI, matchesCI_congr h]
  | cons c cs ih => simp [hasOccCI, matchesCI_congr h, ih]

theorem sanitizeWith_default (t : List Char) :
    sanitizeWith CONFIDENTIAL_TERMS t =
      subCI vnT2l ktCode (subCI vnT2 ktCode
        (subCI vnT1l acCode (subCI vnT1 acCode t))) := rfl

theorem sanitize_text_data (t : String) :
    (sanitize_text t).data = sanitizeWith CONFIDENTIAL_TERMS t.data := rfl

/-- After the full default Term-Map pass, no case-insensitive occurrence of
`Anh chị` remains, whatever the input text. -/
theorem sanitize_no_t1 (t : List Char) :
    hasOccCI vnT1 (sanitizeWith CONFIDENTIAL_TERMS t) = false := by
  rw [sanitizeWith_default]
  have h1 : hasOccCI vnT1 (subCI vnT1 acCode t) = false :=
    subCIF_kill vnT1 acCode (by decide) (by decide) (by decide) (by decide)
      (by decide) t.length t (Nat.le_refl _)
  have h2 : hasOccCI vnT1 (subCI vnT1l acCode (subCI vnT1 acCode t)) = false :=
    subCIF_preserve vnT1 vnT1l acCode (by decide) (by decide) (by decide)
      (by decide) (by decide) (by decide) _ _ (Nat.le_refl _) h1
  have h3 : hasOccCI vnT1 (subCI vnT2 ktCode
      (subCI vnT1l acCode (subCI vnT1 acCode t))) = false :=
    subCIF_preserve vnT1 vnT2 ktCode (by decide) (by decide) (by decide)
      (by decide) (by decide) (by decide) _ _ (Nat.le_refl _) h2
  exact subCIF_preserve vnT1 vnT2l ktCode (by decide) (by decide) (by decide)
    (by decide) (by decide) (by decide) _ _ (Nat.le_refl _) h3

/-- After the full default Term-Map pass, no case-insensitive occurrence of
`Kiến thức` remains, whatever the input text. -/
theorem sanitize_no_t2 (t : List Char) :
    hasOccCI vnT2 (sanitizeWith CONFIDENTIAL_TERMS t) = false := by
  rw [sanitizeWith_default]
  have h3 : hasOccCI vnT2 (subCI vnT2 ktCode
      (subCI vnT1l acCode (subCI vnT1 acCode t))) = false :=
    subCIF_kill vnT2 ktCode (by decide) (by decide) (by decide) (by decide)
      (by decide) _ _ (Nat.le_refl _)
  exact subCIF_preserve vnT2 vnT2l ktCode (by decide) (by decide) (by decide)
    (by decide) (by decide) (by decide) _ _ (Nat.le_refl _) h3

/-! ### Generic facts about exact matching and word-boundary replacement -/

theorem startsWith_nil_of_ne {p : List Char} (hp : p ≠ []) :
    startsWith p [] = false := by
  cases p with
  | nil => exact absurd rfl hp
  | cons a q => rfl

theorem startsWith_append_split {p u v : List Char}
    (h : startsWith p (u ++ v) = true) :
    startsWith (p.take u.length) u = true ∧
      startsWith (p.drop u.length) v = true := by
  induction u generalizing p with
  | nil => simpa [startsWith] using h
  | cons c u ih =>
    cases p with
    | nil => simp [startsWith]
    | cons a p =>
      simp only [List.cons_append, startsWith, Bool.and_eq_true] at h
      obtain ⟨h1, h2⟩ := h
      obtain ⟨h3, h4⟩ := ih h2
      exact ⟨by simp [List.take, startsWith, h1, h3], by simpa using h4⟩

theorem hasSub_of_startsWith {p s : List Char} (h : startsWith p s = true) :
    hasSub p s = true := by
  cases s with
  | nil => simpa [hasSub] using h
  | cons c cs => simp [hasSub, h]

theorem hasSub_cons_of {p : List Char} (c : Char) {cs : List Char}
    (h : hasSub p cs = true) : hasSub p (c :: cs) = true := by
  simp [hasSub, h]

/-- A word-boundary-delimited occurrence is in particular a plain
substring occurrence. -/
theorem hasSub_of_hasWB {code s : List Char} {prevW : Bool}
    (h : hasWB code prevW s = true) : hasSub code s = true := by
  induction s generalizing prevW with
  | nil => simp [hasWB] at h
  | cons c cs ih =>
    simp only [hasWB, Bool.or_eq_true] at h
    rcases h with h | h
    · cases code with
      | nil => simp [wbMatchAt] at h
      | cons c0 ct =>
        simp only [wbMatchAt, Bool.and_eq_true] at h
        exact hasSub_of_startsWith h.1.2
    · exact hasSub_cons_of c (ih h)

theorem getLastD_ind {α : Type} (l : List α) (a b : α) (hl : l ≠ []) :
    l.getLastD a = l.getLastD b := by
  induction l with
  | nil => exact absurd rfl hl
  | cons x xs ih =>
    cases xs with
    | nil => rfl
    | cons y ys => exact ih (by simp)

/-- The replacement scan over the empty text is empty. -/
theorem subWBF_nil (code rep : List Char) (fuel : Nat) (prevW : Bool) :
    subWBF code rep fuel prevW [] = [] := by
  cases fuel <;> rfl

/-- If no word-boundary-delimited occurrence of the code exists, the
word-boundary replace-all scan is the identity. -/
theorem subWBF_id_of_noWB {code : List Char} (rep : List Char)
    {s : List Char} {prevW : Bool} (h : hasWB code prevW s = false) :
    ∀ fuel, subWBF code rep fuel prevW s = s := by
  intro fuel
  induction s generalizing prevW fuel with
  | nil => cases fuel <;> rfl
  | cons c cs ih =>
    cases fuel with
    | zero => rfl
    | succ f =>
      simp only [hasWB, Bool.or_eq_false_iff] at h
      simp only [subWBF, h.1, if_neg, Bool.false_eq_true, not_false_eq_true]
      rw [ih h.2]

/-- Under a word-flanked code and replacement, the scan preserves the word
status of the first character of the text (and emptiness). -/
theorem subWBF_head (code rep : List Char) (hc : code ≠ []) (hr : rep ≠ [])
    (hcw0 : isWordChar (code.headD 'a') = true)
    (hrw0 : isWordChar (rep.headD 'a') = true) :
    ∀ fuel prevW c cs, ∃ d ds,
      subWBF code rep fuel prevW (c :: cs) = d :: ds ∧
        isWordChar d = isWordChar c := by
  intro fuel prevW c cs
  cases fuel with
  | zero => exact ⟨c, cs, rfl, rfl⟩
  | succ f =>
    by_cases hm : wbMatchAt code prevW (c :: cs) = true
    · cases code with
      | nil => exact absurd rfl hc
      | cons c0 ct =>
        simp only [wbMatchAt, Bool.and_eq_true] at hm
        have hc0 : c0 = c := by
          have := hm.1.2
          simp only [startsWith, Bool.and_eq_true, beq_iff_eq] at this
          exact this.1
        cases rep with
        | nil => exact absurd rfl hr
        | cons r0 rt =>
          refine ⟨r0, rt ++ subWBF (c0 :: ct) (r0 :: rt) f
            (isWordChar ((c0 :: ct).getLastD c)) ((c :: cs).drop (c0 :: ct).length), ?_, ?_⟩
          · simp only [subWBF]
            rw [if_pos (by simp only [wbMatchAt, Bool.and_eq_true]; exact hm)]
            rfl
          · subst hc0
            simp only [List.headD] at hcw0 hrw0
            rw [hrw0, hcw0]
    · have hm' : wbMatchAt code prevW (c :: cs) = false := by
        cases hmm : wbMatchAt code prevW (c :: cs) with
        | false => rfl
        | true => exact absurd hmm hm
      exact ⟨c, subWBF code rep f (isWordChar c) cs, by
        simp only [subWBF, hm', if_neg, Bool.false_eq_true, not_false_eq_true], rfl⟩

/-- Under a word-flanked code and replacement, a trailing word-boundary
test sees the same answer on the scanned output as on the input. -/
theorem subWBF_wbAfter (code rep : List Char) (hc : code ≠ []) (hr : rep ≠ [])
    (hcw0 : isWordChar (code.headD 'a') = true)
    (hrw0 : isWordChar (rep.headD 'a') = true)
    (fuel : Nat) (prevW : Bool) (s : List Char) (lw : Bool) :
    wbAfter lw (subWBF code rep fuel prevW s) = wbAfter lw s := by
  cases s with
  | nil => rw [subWBF_nil]
  | cons c cs =>
    obtain ⟨d, ds, hout, hw⟩ := subWBF_head code rep hc hr hcw0 hrw0 fuel prevW c cs
    rw [hout]
    simp [wbAfter, hw]

/-- No word-boundary occurrence of `p` can start inside (or crossing out
of) a replacement block `rep`, when no alignment of `p` against any suffix
of `rep` succeeds; past the block the scan context is the word status of
the block's last character. -/
theorem hasWB_append_block (p : List Char) (rep : List Char) (out : List Char)
    (hr : rep ≠ [])
    (hno : ∀ j < rep.length,
      startsWith (p.take (rep.length - j)) (rep.drop j) = false)
    (hout : hasWB p (isWordChar (rep.getLastD 'a')) out = false) :
    ∀ W, hasWB p W (rep ++ out) = false := by
  induction rep with
  | nil => exact absurd rfl hr
  | cons d rep' ih =>
    intro W
    have hfirst : wbMatchAt p W ((d :: rep') ++ out) = false := by
      cases p with
      | nil => rfl
      | cons p0 pt =>
        cases hx : wbMatchAt (p0 :: pt) W ((d :: rep') ++ out) with
        | false => rfl
        | true =>
          exfalso
          simp only [wbMatchAt, Bool.and_eq_true] at hx
          obtain ⟨⟨_, hsw⟩, _⟩ := hx
          replace hsw : startsWith (p0 :: pt) ((d :: rep') ++ out) = true := hsw
          obtain ⟨h1, _⟩ := startsWith_append_split hsw
          have h0 := hno 0 (by simp)
          simp only [Nat.sub_zero, List.drop_zero] at h0
          rw [h0] at h1
          exact Bool.noConfusion h1
    have hstep : hasWB p W ((d :: rep') ++ out) =
        (wbMatchAt p W ((d :: rep') ++ out) || hasWB p (isWordChar d) (rep' ++ out)) := rfl
    rw [hstep, hfirst, Bool.false_or]
    cases rep' with
    | nil =>
      simpa using hout
    | cons e rep'' =>
      refine ih (by simp) ?_ ?_ (isWordChar d)
      · intro j hj
        have := hno (j + 1) (by simpa using Nat.succ_lt_succ hj)
        simpa using this
      · rw [List.getLastD_cons] at hout
        rwa [getLastD_ind (e :: rep'') d 'a' (by simp)] at hout

/-- Walking the scan context along an exact match of `q`: if no
word-boundary occurrence of `p` exists from the current position, none
exists from the position just past the match either. -/
theorem hasWB_drop_along (p q : List Char) (hq : q ≠ []) :
    ∀ s prevW, startsWith q s = true → hasWB p prevW s = false →
      hasWB p (isWordChar (q.getLastD 'a')) (s.drop q.length) = false := by
  induction q with
  | nil => exact absurd rfl hq
  | cons x q' ih =>
    intro s prevW hsw hno
    cases s with
    | nil =>
      rw [startsWith_nil_of_ne (by simp)] at hsw
      exact Bool.noConfusion hsw
    | cons c cs =>
      simp only [startsWith, Bool.and_eq_true, beq_iff_eq] at hsw
      obtain ⟨hx, hsw'⟩ := hsw
      simp only [hasWB, Bool.or_eq_false_iff] at hno
      cases q' with
      | nil =>
        simpa [hx] using hno.2
      | cons y q'' =>
        have hrec := ih (by simp) cs (isWordChar c) hsw' hno.2
        rw [getLastD_ind (y :: q'') 'a' x (by simp)] at hrec
        simpa [List.getLastD] using hrec

/-- Core invariant of the word-boundary replace-all scan, for word-flanked
codes and replacements.  Scanning for `q` and replacing it by `rep`
produces a text with no word-boundary occurrence of `p` (with the same
incoming context), provided either the input had none (preservation) or
`p` is the scanned code itself (removal), and `p` cannot align with any
part of a replacement block.  The second conjunct transfers partial
matches of proper suffixes of `p` (together with their trailing boundary
test) from the output back to the input. -/
theorem subWBF_main (p q rep : List Char)
    (hp : p ≠ []) (hq : q ≠ []) (hr : rep ≠ [])
    (hqw0 : isWordChar (q.headD 'a') = true)
    (hqwl : isWordChar (q.getLastD 'a') = true)
    (hrw0 : isWordChar (rep.headD 'a') = true)
    (hrwl : isWordChar (rep.getLastD 'a') = true)
    (hno : ∀ j < rep.length,
      startsWith (p.take (rep.length - j)) (rep.drop j) = false)
    (htail : ∀ k < p.length, 0 < k →
      startsWith ((p.drop k).take rep.length) rep = false) :
    ∀ fuel prevW s, s.length ≤ fuel →
      (hasWB p prevW s = false ∨ p = q) →
      hasWB p prevW (subWBF q rep fuel prevW s) = false ∧
        (∀ k < p.length, 0 < k →
          startsWith (p.drop k) (subWBF q rep fuel prevW s) = true →
          startsWith (p.drop k) s = true ∧
            (wbAfter (isWordChar (p.getLastD 'a'))
                ((subWBF q rep fuel prevW s).drop (p.length - k)) = true →
              wbAfter (isWordChar (p.getLastD 'a')) (s.drop (p.length - k)) = true)) := by
  intro fuel
  induction fuel with
  | zero =>
    intro prevW s hs _
    have hnil : s = [] := List.eq_nil_of_length_eq_zero (Nat.le_zero.mp hs)
    subst hnil
    rw [subWBF_nil]
    refine ⟨rfl, ?_⟩
    intro k hk _ hswk
    obtain ⟨a, ha⟩ := exists_drop_cons p k hk
    rw [ha, startsWith_nil_of_ne (by simp)] at hswk
    exact Bool.noConfusion hswk
  | succ f ihf =>
    intro prevW s hs H
    cases s with
    | nil =>
      rw [subWBF_nil]
      refine ⟨rfl, ?_⟩
      intro k hk _ hswk
      obtain ⟨a, ha⟩ := exists_drop_cons p k hk
      rw [ha, startsWith_nil_of_ne (by simp)] at hswk
      exact Bool.noConfusion hswk
    | cons c cs =>
      by_cases hm : wbMatchAt q prevW (c :: cs) = true
      · -- the scan replaces a match of q here
        have hout : subWBF q rep (f + 1) prevW (c :: cs) =
            rep ++ subWBF q rep f (isWordChar (q.getLastD c))
              ((c :: cs).drop q.length) := by
          simp only [subWBF, hm, if_true]
        have hWl : isWordChar (q.getLastD c) = true := by
          rw [getLastD_ind q c 'a' hq]; exact hqwl
        have hswq : startsWith q (c :: cs) = true := by
          cases q with
          | nil => exact absurd rfl hq
          | cons q0 qt =>
            simp only [wbMatchAt, Bool.and_eq_true] at hm
            exact hm.1.2
        have hql : 1 ≤ q.length := by
          cases q with
          | nil => exact absurd rfl hq
          | cons a l => simp
        have hlen' : ((c :: cs).drop q.length).length ≤ f := by
          simp only [List.length_drop, List.length_cons]
          simp only [List.length_cons] at hs
          omega
        have H' : hasWB p (isWordChar (q.getLastD c))
            ((c :: cs).drop q.length) = false ∨ p = q := by
          rcases H with H | H
          · left
            have := hasWB_drop_along p q hq (c :: cs) prevW hswq H
            rwa [getLastD_ind q 'a' c hq] at this
          · exact Or.inr H
        obtain ⟨ih1, ih2⟩ := ihf (isWordChar (q.getLastD c))
          ((c :: cs).drop q.length) hlen' H'
        rw [hout]
        constructor
        · refine hasWB_append_block p rep _ hr hno ?_ prevW
          have heq : isWordChar (rep.getLastD 'a') = isWordChar (q.getLastD c) := by
            rw [hrwl, hWl]
          rw [heq]
          exact ih1
        · intro k hk hk0 hswk
          exfalso
          obtain ⟨h1, _⟩ := startsWith_append_split hswk
          rw [htail k hk hk0] at h1
          exact Bool.noConfusion h1
      · -- no match of q here: the character is preserved
        have hm' : wbMatchAt q prevW (c :: cs) = false := by
          cases hmm : wbMatchAt q prevW (c :: cs) with
          | false => rfl
          | true => exact absurd hmm hm
        have hout : subWBF q rep (f + 1) prevW (c :: cs) =
            c :: subWBF q rep f (isWordChar c) cs := by
          simp only [subWBF, hm', if_neg, Bool.false_eq_true, not_false_eq_true]
        have hlen' : cs.length ≤ f := by
          simp only [List.length_cons] at hs
          omega
        have H' : hasWB p (isWordChar c) cs = false ∨ p = q := by
          rcases H with H | H
          · simp only [hasWB, Bool.or_eq_false_iff] at H
            exact Or.inl H.2
          · exact Or.inr H
        obtain ⟨ih1, ih2⟩ := ihf (isWordChar c) cs hlen' H'
        rw [hout]
        constructor
        · show (wbMatchAt p prevW (c :: subWBF q rep f (isWordChar c) cs) ||
            hasWB p (isWordChar c) (subWBF q rep f (isWordChar c) cs)) = false
          rw [ih1, Bool.or_false]
          cases hx : wbMatchAt p prevW (c :: subWBF q rep f (isWordChar c) cs) with
          | false => rfl
          | true =>
            exfalso
            cases p with
            | nil => simp [wbMatchAt] at hx
            | cons p0 pt =>
              simp only [wbMatchAt, Bool.and_eq_true] at hx
              obtain ⟨⟨hb, hsw0⟩, haf⟩ := hx
              simp only [startsWith, Bool.and_eq_true, beq_iff_eq] at hsw0
              obtain ⟨hp0, hswt⟩ := hsw0
              have hcontra : wbMatchAt (p0 :: pt) prevW (c :: cs) = true := by
                cases pt with
                | nil =>
                  have htr := subWBF_wbAfter q rep hq hr hqw0 hrw0 f
                    (isWordChar c) cs (isWordChar ((p0 :: ([] : List Char)).getLastD p0))
                  simp only [wbMatchAt, Bool.and_eq_true]
                  refine ⟨⟨hb, ?_⟩, ?_⟩
                  · simp [startsWith, hp0]
                  · have haf' : wbAfter
                        (isWordChar ((p0 :: ([] : List Char)).getLastD p0))
                        (subWBF q rep f (isWordChar c) cs) = true := haf
                    rw [htr] at haf'
                    exact haf'
                | cons p1 pt' =>
                  have hk1 : 1 < (p0 :: p1 :: pt').length := by simp
                  obtain ⟨hsc, hafc⟩ := ih2 1 hk1 Nat.one_pos hswt
                  simp only [wbMatchAt, Bool.and_eq_true]
                  refine ⟨⟨hb, ?_⟩, ?_⟩
                  · simp only [startsWith, Bool.and_eq_true, beq_iff_eq]
                    exact ⟨hp0, hsc⟩
                  · have hidx : (p0 :: p1 :: pt').length =
                        ((p0 :: p1 :: pt').length - 1) + 1 := by simp
                    rw [hidx, List.drop_succ_cons]
                    have haf' : wbAfter
                        (isWordChar ((p0 :: p1 :: pt').getLastD p0))
                        ((subWBF q rep f (isWordChar c) cs).drop
                          ((p0 :: p1 :: pt').length - 1)) = true := by
                      have h2 : (p0 :: p1 :: pt').length =
                          ((p0 :: p1 :: pt').length - 1) + 1 := by simp
                      rw [h2, List.drop_succ_cons] at haf
                      exact haf
                    rw [getLastD_ind (p0 :: p1 :: pt') p0 'a' (by simp)] at haf' ⊢
                    exact hafc haf'
              rcases H with H | H
              · simp only [hasWB, hcontra, Bool.true_or] at H
                exact Bool.noConfusion H
              · rw [← H] at hm'
                rw [hcontra] at hm'
                exact Bool.noConfusion hm'
        · intro k hk hk0 hswk
          obtain ⟨a, ha⟩ := exists_drop_cons p k hk
          rw [ha] at hswk ⊢
          simp only [startsWith, Bool.and_eq_true, beq_iff_eq] at hswk ⊢
          obtain ⟨hac, hswk'⟩ := hswk
          by_cases hke : k + 1 < p.length
          · obtain ⟨h1', h2'⟩ := ih2 (k + 1) hke (Nat.succ_pos k) hswk'
            refine ⟨⟨hac, h1'⟩, ?_⟩
            intro hafq
            have hidx : p.length - k = (p.length - (k + 1)) + 1 := by omega
            rw [hidx, List.drop_succ_cons] at hafq ⊢
            exact h2' hafq
          · have hnil : p.drop (k + 1) = [] := by
              rw [List.drop_eq_nil_iff]
              omega
            refine ⟨⟨hac, by rw [hnil]; rfl⟩, ?_⟩
            intro hafq
            have hidx : p.length - k = 1 := by omega
            rw [hidx, List.drop_succ_cons, List.drop_zero] at hafq ⊢
            have htr := subWBF_wbAfter q rep hq hr hqw0 hrw0 f
              (isWordChar c) cs (isWordChar (p.getLastD 'a'))
            rw [htr] at hafq
            exact hafq

/-! ### The restore passes on the default reverse map -/

theorem reverse_default (s : String) :
    (reverse_sanitize_text s).data =
      subWB ktCode vnT2 (subWB acCode vnT1 s.data) := rfl

/-- The first restore pass leaves no word-boundary occurrence of `AC`. -/
theorem restore1_no_ac (t : List Char) :
    hasWB acCode false (subWB acCode vnT1 t) = false :=
  (subWBF_main acCode acCode vnT1 (by decide) (by decide) (by decide)
    (by decide) (by decide) (by decide) (by decide) (by decide) (by decide)
    t.length false t (Nat.le_refl _) (Or.inr rfl)).1

/-- The second restore pass cannot reintroduce a word-boundary occurrence
of `AC`. -/
theorem restore_no_ac (t : List Char) :
    hasWB acCode false (subWB ktCode vnT2 (subWB acCode vnT1 t)) = false :=
  (subWBF_main acCode ktCode vnT2 (by decide) (by decide) (by decide)
    (by decide) (by decide) (by decide) (by decide) (by decide) (by decide)
    (subWB acCode vnT1 t).length false (subWB acCode vnT1 t)
    (Nat.le_refl _) (Or.inl (restore1_no_ac t))).1

/-- The second restore pass leaves no word-boundary occurrence of `KT`. -/
theorem restore_no_kt (u : List Char) :
    hasWB ktCode false (subWB ktCode vnT2 u) = false :=
  (subWBF_main ktCode ktCode vnT2 (by decide) (by decide) (by decide)
    (by decide) (by decide) (by decide) (by decide) (by decide) (by decide)
    u.length false u (Nat.le_refl _) (Or.inr rfl)).1

/-! ### Claim theorems -/

/-- Claim C2: for every input text, the output of `sanitize_text` with the
default Term Map contains no original term of the Term Map as a substring,
compared case-insensitively — so any string built from the sanitized
artifact alone cannot contain a Term Map term. -/
theorem C2_sanitize_no_leak (t : String) (pr : String × String)
    (hpr : pr ∈ CONFIDENTIAL_TERMS) :
    hasOccCI pr.1.data (sanitize_text t).data = false := by
  have h1 := sanitize_no_t1 t.data
  have h2 := sanitize_no_t2 t.data
  rw [sanitize_text_data]
  simp only [CONFIDENTIAL_TERMS, List.mem_cons, List.not_mem_nil,
    or_false] at hpr
  rcases hpr with rfl | rfl | rfl | rfl
  · exact h1
  · exact (hasOccCI_congr (p := vnT1l) (q := vnT1) (by decide) _).trans h1
  · exact h2
  · exact (hasOccCI_congr (p := vnT2l) (q := vnT2) (by decide) _).trans h2

/-- Witness for C2 at the first Term-Map entry and a concrete text. -/
theorem C2_witness :
    ((r"Anh chị", r"AC") : String × String) ∈ CONFIDENTIAL_TERMS ∧
      hasOccCI ((r"Anh chị" : String)).data (sanitize_text exInput).data = false :=
  ⟨by decide, C2_sanitize_no_leak exInput ((r"Anh chị", r"AC")) (by decide)⟩

/-- Claim C3: for every existing video path (and even when transcription
succeeds), both `complete_pipeline` variants return the failure sentinel
`None`: the tuple unpacking of the boolean returned by `transcribe_video`
raises a `TypeError` that the transcription stage handler reports, so no
later stage runs and no artifact mapping is returned. -/
theorem C3_pipeline_unpack (env : PipelineEnv) (sk ks : Bool)
    (tr : Option String) (hex : env.videoExists = true)
    (hok : env.transcribeOk = true) :
    src_process_video_complete.complete_pipeline env sk ks tr = none ∧
      process_video_complete.complete_pipeline env sk ks = none := by
  obtain ⟨ve, tok, ou, ma, sr, tr2, vb⟩ := env
  replace hex : ve = true := hex
  replace hok : tok = true := hok
  subst hex
  subst hok
  exact ⟨rfl, rfl⟩

/-- Witness for C3 at a healthy concrete environment. -/
theorem C3_witness :
    exEnv.videoExists = true ∧ exEnv.transcribeOk = true ∧
      (src_process_video_complete.complete_pipeline exEnv false false
          (some (r"English")) = none ∧
        process_video_complete.complete_pipeline exEnv false false = none) :=
  ⟨rfl, rfl, C3_pipeline_unpack exEnv false false (some (r"English")) rfl rfl⟩

/-- Claim C4, code behavior: in the claim's scenario (existing video,
successful transcription, summarization collaborator unavailable,
translation requested and able to succeed) the pipeline returns the
failure sentinel `None` — it produces no artifact mapping, and the
translation stage is never attempted, contradicting the documented skip
policy. -/
theorem C4_code_behavior :
    src_process_video_complete.complete_pipeline c4Env false false
      (some (r"English")) = none := rfl

/-- Claim C5: the reverse map keeps the first declared entry for each code
(`AC -> Anh chị`, `KT -> Kiến thức`), both casing variants sanitize to the
same code, and restoring that code always yields the first declared
casing. -/
theorem C5_first_wins :
    create_reverse_mapping CONFIDENTIAL_TERMS =
        [(exAC, exCanon), (exKT, exKThuc)] ∧
      sanitize_text exCanon = exAC ∧ sanitize_text exLower = exAC ∧
      reverse_sanitize_text exAC = exCanon := by
  refine ⟨by decide, by decide, by decide, by decide⟩

/-- Claim C6: a text whose codes appear only in non-matching case (no
case-sensitive occurrence of `AC` or `KT` at all) is left unchanged by
restore: restore replaces only word-boundary-delimited, case-sensitive
occurrences of each code. -/
theorem C6_case_mismatch (t : String)
    (hac : hasSub acCode t.data = false)
    (hkt : hasSub ktCode t.data = false) :
    reverse_sanitize_text t = t := by
  have hac' : hasWB acCode false t.data = false := by
    cases h : hasWB acCode false t.data with
    | false => rfl
    | true =>
      have := hasSub_of_hasWB h
      rw [hac] at this
      exact Bool.noConfusion this
  have hkt' : hasWB ktCode false t.data = false := by
    cases h : hasWB ktCode false t.data with
    | false => rfl
    | true =>
      have := hasSub_of_hasWB h
      rw [hkt] at this
      exact Bool.noConfusion this
  apply String.ext
  rw [reverse_default]
  rw [show subWB acCode vnT1 t.data = t.data from
    subWBF_id_of_noWB vnT1 hac' t.data.length]
  exact subWBF_id_of_noWB vnT2 hkt' t.data.length

/-- Witness for C6: a text holding the codes only in lowercase. -/
theorem C6_witness :
    hasSub acCode exMismatch.data = false ∧
      hasSub ktCode exMismatch.data = false ∧
      reverse_sanitize_text exMismatch = exMismatch :=
  ⟨by decide, by decide, C6_case_mismatch exMismatch (by decide) (by decide)⟩

/-- Claim C7: sanitize applies the Term-Map patterns sequentially in
declared order against the already-partially-substituted text: with the
map `[Kiến thức -> KT, thức -> X]` the input `Kiến thức` becomes `KT`,
while the reverse declaration order yields `Kiến X` instead. -/
theorem C7_order_sensitivity :
    sanitizeWith orderMapA exKThuc.data = exKT.data ∧
      sanitizeWith orderMapB exKThuc.data = exKienX.data ∧
      sanitizeWith orderMapB exKThuc.data ≠ exKT.data := by
  refine ⟨by decide, by decide, by decide⟩

/-- Claim C8: with the default Term Map (whose codes textually equal no
original term), restore is idempotent on its own output. -/
theorem C8_restore_idempotent (t : String) :
    reverse_sanitize_text (reverse_sanitize_text t) =
      reverse_sanitize_text t := by
  apply String.ext
  rw [reverse_default (reverse_sanitize_text t)]
  have hac : hasWB acCode false (reverse_sanitize_text t).data = false := by
    rw [reverse_default]
    exact restore_no_ac t.data
  have hkt : hasWB ktCode false (reverse_sanitize_text t).data = false := by
    rw [reverse_default]
    exact restore_no_kt (subWB acCode vnT1 t.data)
  rw [show subWB acCode vnT1 (reverse_sanitize_text t).data =
      (reverse_sanitize_text t).data from
    subWBF_id_of_noWB vnT1 hac (reverse_sanitize_text t).data.length]
  exact subWBF_id_of_noWB vnT2 hkt (reverse_sanitize_text t).data.length

/-- Claim C9: for every Term Map, the reverse map has at most as many
entries as the Term Map.  (In this embedding `create_reverse_mapping` is a
pure function of the Term Map, recomputed inside `reverse_sanitize_text`
at each call, which is the freshness half of the claim.) -/
theorem C9_reverse_map_size (terms : List (String × String)) :
    (create_reverse_mapping terms).length ≤ terms.length := by
  have key : ∀ (ts acc : List (String × String)),
      (List.foldl
        (fun m pr =>
          if m.any (fun e => e.1 == pr.2) then m
          else m ++ [(pr.2, ⟨pyStrip (stripBoundaryMarks pr.1.data)⟩)])
        acc ts).length ≤ acc.length + ts.length := by
    intro ts
    induction ts with
    | nil => intro acc; simp
    | cons pr ts ih =>
      intro acc
      have hstep : (if acc.any (fun e => e.1 == pr.2) then acc
          else acc ++ [(pr.2, ⟨pyStrip (stripBoundaryMarks pr.1.data)⟩)]).length ≤
            acc.length + 1 := by
        split
        · omega
        · simp
      have := ih (if acc.any (fun e => e.1 == pr.2) then acc
        else acc ++ [(pr.2, ⟨pyStrip (stripBoundaryMarks pr.1.data)⟩)])
      simp only [List.foldl_cons, List.length_cons]
      omega
  simpa [create_reverse_mapping] using key terms []

/-- Claim C10: restore touches nothing but exact code tokens: a text with
no word-boundary-delimited, case-sensitive occurrence of any code of the
reverse map is returned unchanged. -/
theorem C10_restore_frame (t : String)
    (hac : hasWB acCode false t.data = false)
    (hkt : hasWB ktCode false t.data = false) :
    reverse_sanitize_text t = t := by
  apply String.ext
  rw [reverse_default]
  rw [show subWB acCode vnT1 t.data = t.data from
    subWBF_id_of_noWB vnT1 hac t.data.length]
  exact subWBF_id_of_noWB vnT2 hkt t.data.length

/-- Witness for C10: codes appear, but never word-boundary-delimited in
matching case. -/
theorem C10_witness :
    hasWB acCode false exFrame.data = false ∧
      hasWB ktCode false exFrame.data = false ∧
      reverse_sanitize_text exFrame = exFrame :=
  ⟨by decide, by decide, C10_restore_frame exFrame (by decide) (by decide)⟩

/-- Counterexample to claim C1 as stated: `anh chị` is a Term-Map term in
its declared casing, yet the round trip returns the first-declared casing
`Anh chị`, not the original text. -/
theorem C1_counterexample :
    reverse_sanitize_text (sanitize_text exLower) = exCanon ∧
      exCanon ≠ exLower := by
  refine ⟨by decide, by decide⟩

/-! ### Round trip on canonically-cased texts (claim C1, amended) -/

theorem subCIF_nil (pat rep : List Char) (f : Nat) :
    subCIF pat rep f [] = [] := by
  cases f <;> rfl

theorem matchesCI_head_ne {p0 c : Char} {pt s' : List Char}
    (h : (foldChar p0 == foldChar c) = false) :
    matchesCI (p0 :: pt) (c :: s') = false := by
  simp [matchesCI, h]

theorem plainChar_not_a {c : Char} (h : plainChar c = true) :
    (foldChar 'A' == foldChar c) = false := by
  simp only [plainChar, Bool.and_eq_true, bne_iff_ne, ne_eq] at h
  have ha : foldChar 'A' = 'a' := by decide
  rw [ha, beq_eq_false_iff_ne]
  intro heq
  exact h.1 heq.symm

theorem plainChar_not_k {c : Char} (h : plainChar c = true) :
    (foldChar 'K' == foldChar c) = false := by
  simp only [plainChar, Bool.and_eq_true, bne_iff_ne, ne_eq] at h
  have hk : foldChar 'K' = 'k' := by decide
  rw [hk, beq_eq_false_iff_ne]
  intro heq
  exact h.2 heq.symm

/-- A match of the scanned pattern itself at the front is replaced. -/
theorem subCIF_match_self (p r X : List Char) (f : Nat) (hp : p ≠ []) :
    subCIF p r (f + 1) (p ++ X) = r ++ subCIF p r f X := by
  cases p with
  | nil => exact absurd rfl hp
  | cons p0 pt =>
    have hm : matchesCI (p0 :: pt) (p0 :: (pt ++ X)) = true :=
      matchesCI_self_append (p0 :: pt) X
    show subCIF (p0 :: pt) r (f + 1) (p0 :: (pt ++ X)) = _
    simp only [subCIF, hm, List.isEmpty_cons, Bool.not_false, Bool.and_self,
      if_true]
    have hdrop : List.drop (p0 :: pt).length (p0 :: (pt ++ X)) = X := by
      show List.drop (p0 :: pt).length ((p0 :: pt) ++ X) = X
      exact List.drop_left (p0 :: pt) X
    rw [hdrop]

/-- A position with no match is skipped. -/
theorem subCIF_skip (p r : List Char) (c : Char) (X : List Char) (f : Nat)
    (h : matchesCI p (c :: X) = false) :
    subCIF p r (f + 1) (c :: X) = c :: subCIF p r f X := by
  simp only [subCIF, h, Bool.and_false, if_neg, Bool.false_eq_true,
    not_false_eq_true]

/-- The scan walks through a block none of whose characters can begin the
pattern. -/
theorem walkCI (p r : List Char) (hp : p ≠ []) (B : List Char)
    (hB : ∀ d ∈ B, (foldChar (p.headD 'a') == foldChar d) = false) :
    ∀ f X, B.length ≤ f →
      subCIF p r f (B ++ X) = B ++ subCIF p r (f - B.length) X := by
  induction B with
  | nil => intro f X _; simp
  | cons d B' ih =>
    intro f X hf
    cases f with
    | zero => simp at hf
    | succ f' =>
      cases p with
      | nil => exact absurd rfl hp
      | cons p0 pt =>
        have hd : (foldChar p0 == foldChar d) = false := by
          have := hB d (by simp)
          simpa [List.headD] using this
        rw [show (d :: B') ++ X = d :: (B' ++ X) from rfl]
        rw [subCIF_skip (p0 :: pt) r d (B' ++ X) f' (matchesCI_head_ne hd)]
        rw [ih (fun e he => hB e (by simp [he])) f' X (by simpa using hf)]
        simp [Nat.succ_sub_succ]

/-- A word-boundary match cannot start at a character different from the
code's first character. -/
theorem wbMatchAt_head_ne {code : List Char} {d : Char} (rest : List Char)
    (hc : code ≠ []) (h : (code.headD 'a' == d) = false) :
    ∀ W, wbMatchAt code W (d :: rest) = false := by
  intro W
  cases code with
  | nil => rfl
  | cons c0 ct =>
    simp only [List.headD] at h
    simp [wbMatchAt, startsWith, h]

/-- A position with no word-boundary match is skipped. -/
theorem subWBF_skip (code rep : List Char) (c : Char) (X : List Char)
    (f : Nat) (W : Bool) (h : wbMatchAt code W (c :: X) = false) :
    subWBF code rep (f + 1) W (c :: X) =
      c :: subWBF code rep f (isWordChar c) X := by
  simp only [subWBF, h, if_neg, Bool.false_eq_true, not_false_eq_true]

/-- The word-boundary scan walks through a block none of whose characters
equals the code's first character; afterwards the context is the word
status of the block's last character. -/
theorem walkWB (code rep : List Char) (hc : code ≠ []) (B : List Char)
    (hBne : B ≠ [])
    (hB : ∀ d ∈ B, (code.headD 'a' == d) = false) :
    ∀ f W X, B.length ≤ f →
      subWBF code rep f W (B ++ X) =
        B ++ subWBF code rep (f - B.length)
          (isWordChar (B.getLastD 'a')) X := by
  induction B with
  | nil => exact absurd rfl hBne
  | cons d B' ih =>
    intro f W X hf
    cases f with
    | zero => simp at hf
    | succ f' =>
      rw [show (d :: B') ++ X = d :: (B' ++ X) from rfl]
      rw [subWBF_skip code rep d (B' ++ X) f' W
        (wbMatchAt_head_ne (B' ++ X) hc (hB d (by simp)) W)]
      cases hB' : B' with
      | nil =>
        subst hB'
        simp [List.getLastD, Nat.succ_sub_succ]
      | cons e B'' =>
        rw [← hB']
        rw [ih (by simp [hB']) (fun x hx => hB x (by simp [hx])) f'
          (isWordChar d) X (by simpa using hf)]
        rw [List.getLastD_cons, getLastD_ind B' d 'a' (by simp [hB'])]
        simp [Nat.succ_sub_succ]

theorem startsWith_self_append (p t : List Char) :
    startsWith p (p ++ t) = true := by
  induction p with
  | nil => simp [startsWith]
  | cons a p ih => simp [startsWith, ih]

/-- Building a word-boundary match of the code against itself: boundary
before, the code itself, boundary after. -/
theorem wbMatchAt_intro (code : List Char) (W : Bool) (X : List Char)
    (hc : code ≠ [])
    (h1 : (W != isWordChar (code.headD 'a')) = true)
    (h2 : wbAfter (isWordChar (code.getLastD 'a')) X = true) :
    wbMatchAt code W (code ++ X) = true := by
  cases code with
  | nil => exact absurd rfl hc
  | cons c0 ct =>
    simp only [wbMatchAt]
    have hsw : startsWith (c0 :: ct) ((c0 :: ct) ++ X) = true :=
      startsWith_self_append (c0 :: ct) X
    have hdrop : ((c0 :: ct) ++ X).drop (c0 :: ct).length = X :=
      List.drop_left (c0 :: ct) X
    rw [hsw, hdrop, getLastD_ind (c0 :: ct) c0 'a' (by simp)]
    simp only [List.headD] at h1
    rw [h2, h1]
    rfl

/-- A word-boundary match of the code itself at the front is replaced. -/
theorem subWBF_match_front (code rep X : List Char) (f : Nat) (W : Bool)
    (hc : code ≠ []) (hm : wbMatchAt code W (code ++ X) = true) :
    subWBF code rep (f + 1) W (code ++ X) =
      rep ++ subWBF code rep f (isWordChar (code.getLastD 'a')) X := by
  cases code with
  | nil => exact absurd rfl hc
  | cons c0 ct =>
    have hm' : wbMatchAt (c0 :: ct) W (c0 :: (ct ++ X)) = true := hm
    show subWBF (c0 :: ct) rep (f + 1) W (c0 :: (ct ++ X)) = _
    simp only [subWBF, hm', if_true]
    rw [getLastD_ind (c0 :: ct) c0 'a' (by simp)]
    have hdrop : (c0 :: (ct ++ X)).drop (c0 :: ct).length = X := by
      show ((c0 :: ct) ++ X).drop (c0 :: ct).length = X
      exact List.drop_left (c0 :: ct) X
    rw [hdrop]

theorem plainChar_ne_A {c : Char} (h : plainChar c = true) :
    (('A' : Char) == c) = false := by
  simp only [plainChar, Bool.and_eq_true, bne_iff_ne, ne_eq] at h
  rw [beq_eq_false_iff_ne]
  intro heq
  exact h.1 (by rw [← heq]; decide)

theorem plainChar_ne_K {c : Char} (h : plainChar c = true) :
    (('K' : Char) == c) = false := by
  simp only [plainChar, Bool.and_eq_true, bne_iff_ne, ne_eq] at h
  rw [beq_eq_false_iff_ne]
  intro heq
  exact h.2 (by rw [← heq]; decide)

/-- A safe token tail denotes a sanitized text across whose first character
the trailing word-boundary test holds. -/
theorem tokHeadNonW_wbAfter_san (ts : List Tok) (h : tokHeadNonW ts = true) :
    wbAfter true (renderSan ts) = true := by
  cases ts with
  | nil => rfl
  | cons t ts' =>
    cases t with
    | t1 => simp [tokHeadNonW] at h
    | t2 => simp [tokHeadNonW] at h
    | ch c =>
      simp only [tokHeadNonW, Bool.not_eq_true'] at h
      show wbAfter true (c :: renderSan ts') = true
      simp [wbAfter, h]

/-- Same statement for the half-restored rendering. -/
theorem tokHeadNonW_wbAfter_r1 (ts : List Tok) (h : tokHeadNonW ts = true) :
    wbAfter true (renderR1 ts) = true := by
  cases ts with
  | nil => rfl
  | cons t ts' =>
    cases t with
    | t1 => simp [tokHeadNonW] at h
    | t2 => simp [tokHeadNonW] at h
    | ch c =>
      simp only [tokHeadNonW, Bool.not_eq_true'] at h
      show wbAfter true (c :: renderR1 ts') = true
      simp [wbAfter, h]

/-- First sanitize pass on a safe token text: exactly the canonical
`Anh chị` blocks are replaced by `AC`. -/
theorem pass1_render : ∀ (ts : List Tok) (f : Nat) (prevW : Bool),
    (render ts).length ≤ f → safeToks prevW ts = true →
    subCIF vnT1 acCode f (render ts) = renderM1 ts := by
  intro ts
  induction ts with
  | nil => intro f _ _ _; exact subCIF_nil vnT1 acCode f
  | cons t ts ih =>
    intro f prevW hf hsafe
    cases t with
    | t1 =>
      have hlen : (render (Tok.t1 :: ts)).length =
          vnT1.length + (render ts).length := by
        show (vnT1 ++ render ts).length = _
        simp
      have h7 : vnT1.length = 7 := by decide
      simp only [safeToks, Bool.and_eq_true] at hsafe
      obtain ⟨⟨_, _⟩, hrest⟩ := hsafe
      cases f with
      | zero => rw [hlen, h7] at hf; omega
      | succ f' =>
        show subCIF vnT1 acCode (f' + 1) (vnT1 ++ render ts) =
          acCode ++ renderM1 ts
        rw [subCIF_match_self vnT1 acCode (render ts) f' (by decide),
          ih f' true (by rw [hlen, h7] at hf; omega) hrest]
    | t2 =>
      have hlen : (render (Tok.t2 :: ts)).length =
          vnT2.length + (render ts).length := by
        show (vnT2 ++ render ts).length = _
        simp
      have h9 : vnT2.length = 9 := by decide
      simp only [safeToks, Bool.and_eq_true] at hsafe
      obtain ⟨⟨_, _⟩, hrest⟩ := hsafe
      show subCIF vnT1 acCode f (vnT2 ++ render ts) = vnT2 ++ renderM1 ts
      rw [walkCI vnT1 acCode (by decide) vnT2 (by decide) f (render ts)
        (by rw [hlen] at hf; omega),
        ih (f - vnT2.length) true (by rw [hlen] at hf; omega) hrest]
    | ch c =>
      have hlen : (render (Tok.ch c :: ts)).length =
          (render ts).length + 1 := by
        show (([c] : List Char) ++ render ts).length = _
        simp [Nat.add_comm]
      simp only [safeToks, Bool.and_eq_true] at hsafe
      obtain ⟨hpc, hrest⟩ := hsafe
      cases f with
      | zero => rw [hlen] at hf; omega
      | succ f' =>
        show subCIF vnT1 acCode (f' + 1) (c :: render ts) =
          c :: renderM1 ts
        have hm : matchesCI vnT1 (c :: render ts) = false :=
          matchesCI_head_ne (plainChar_not_a hpc)
        rw [subCIF_skip vnT1 acCode c (render ts) f' hm,
          ih f' (isWordChar c) (by rw [hlen] at hf; omega) hrest]

/-- Second-stage sanitize pass on a safe token text: exactly the canonical
`Kiến thức` blocks are replaced by `KT`. -/
theorem pass3_render : ∀ (ts : List Tok) (f : Nat) (prevW : Bool),
    (renderM1 ts).length ≤ f → safeToks prevW ts = true →
    subCIF vnT2 ktCode f (renderM1 ts) = renderSan ts := by
  intro ts
  induction ts with
  | nil => intro f _ _ _; exact subCIF_nil vnT2 ktCode f
  | cons t ts ih =>
    intro f prevW hf hsafe
    cases t with
    | t1 =>
      have hlen : (renderM1 (Tok.t1 :: ts)).length =
          acCode.length + (renderM1 ts).length := by
        show (acCode ++ renderM1 ts).length = _
        simp
      have h2 : acCode.length = 2 := by decide
      simp only [safeToks, Bool.and_eq_true] at hsafe
      obtain ⟨⟨_, _⟩, hrest⟩ := hsafe
      show subCIF vnT2 ktCode f (acCode ++ renderM1 ts) =
        acCode ++ renderSan ts
      rw [walkCI vnT2 ktCode (by decide) acCode (by decide) f (renderM1 ts)
        (by rw [hlen] at hf; omega),
        ih (f - acCode.length) true (by rw [hlen] at hf; omega) hrest]
    | t2 =>
      have hlen : (renderM1 (Tok.t2 :: ts)).length =
          vnT2.length + (renderM1 ts).length := by
        show (vnT2 ++ renderM1 ts).length = _
        simp
      have h9 : vnT2.length = 9 := by decide
      simp only [safeToks, Bool.and_eq_true] at hsafe
      obtain ⟨⟨_, _⟩, hrest⟩ := hsafe
      cases f with
      | zero => rw [hlen, h9] at hf; omega
      | succ f' =>
        show subCIF vnT2 ktCode (f' + 1) (vnT2 ++ renderM1 ts) =
          ktCode ++ renderSan ts
        rw [subCIF_match_self vnT2 ktCode (renderM1 ts) f' (by decide),
          ih f' true (by rw [hlen, h9] at hf; omega) hrest]
    | ch c =>
      have hlen : (renderM1 (Tok.ch c :: ts)).length =
          (renderM1 ts).length + 1 := by
        show (([c] : List Char) ++ renderM1 ts).length = _
        simp [Nat.add_comm]
      simp only [safeToks, Bool.and_eq_true] at hsafe
      obtain ⟨hpc, hrest⟩ := hsafe
      cases f with
      | zero => rw [hlen] at hf; omega
      | succ f' =>
        show subCIF vnT2 ktCode (f' + 1) (c :: renderM1 ts) =
          c :: renderSan ts
        have hm : matchesCI vnT2 (c :: renderM1 ts) = false :=
          matchesCI_head_ne (plainChar_not_k hpc)
        rw [subCIF_skip vnT2 ktCode c (renderM1 ts) f' hm,
          ih f' (isWordChar c) (by rw [hlen] at hf; omega) hrest]

/-- First restore pass on a safe sanitized token text: exactly the `AC`
blocks are restored to `Anh chị`. -/
theorem pass5_render : ∀ (ts : List Tok) (f : Nat) (W : Bool),
    (renderSan ts).length ≤ f → safeToks W ts = true →
    subWBF acCode vnT1 f W (renderSan ts) = renderR1 ts := by
  intro ts
  induction ts with
  | nil => intro f W _ _; exact subWBF_nil acCode vnT1 f W
  | cons t ts ih =>
    intro f W hf hsafe
    cases t with
    | t1 =>
      have hlen : (renderSan (Tok.t1 :: ts)).length =
          acCode.length + (renderSan ts).length := by
        show (acCode ++ renderSan ts).length = _
        simp
      have h2 : acCode.length = 2 := by decide
      simp only [safeToks, Bool.and_eq_true] at hsafe
      obtain ⟨⟨hW, hhead⟩, hrest⟩ := hsafe
      have hWf : W = false := by
        cases W with
        | false => rfl
        | true => simp at hW
      subst hWf
      cases f with
      | zero => rw [hlen, h2] at hf; omega
      | succ f' =>
        show subWBF acCode vnT1 (f' + 1) false (acCode ++ renderSan ts) =
          vnT1 ++ renderR1 ts
        have hm : wbMatchAt acCode false (acCode ++ renderSan ts) = true :=
          wbMatchAt_intro acCode false (renderSan ts) (by decide) (by decide)
            (by rw [show isWordChar (acCode.getLastD 'a') = true from by decide]
                exact tokHeadNonW_wbAfter_san ts hhead)
        rw [subWBF_match_front acCode vnT1 (renderSan ts) f' false
          (by decide) hm]
        rw [show isWordChar (acCode.getLastD 'a') = true from by decide]
        rw [ih f' true (by rw [hlen, h2] at hf; omega) hrest]
    | t2 =>
      have hlen : (renderSan (Tok.t2 :: ts)).length =
          ktCode.length + (renderSan ts).length := by
        show (ktCode ++ renderSan ts).length = _
        simp
      have h2 : ktCode.length = 2 := by decide
      simp only [safeToks, Bool.and_eq_true] at hsafe
      obtain ⟨⟨_, _⟩, hrest⟩ := hsafe
      show subWBF acCode vnT1 f W (ktCode ++ renderSan ts) =
        ktCode ++ renderR1 ts
      rw [walkWB acCode vnT1 (by decide) ktCode (by decide) (by decide)
        f W (renderSan ts) (by rw [hlen] at hf; omega)]
      rw [show isWordChar (ktCode.getLastD 'a') = true from by decide]
      rw [ih (f - ktCode.length) true (by rw [hlen] at hf; omega) hrest]
    | ch c =>
      have hlen : (renderSan (Tok.ch c :: ts)).length =
          (renderSan ts).length + 1 := by
        show (([c] : List Char) ++ renderSan ts).length = _
        simp [Nat.add_comm]
      simp only [safeToks, Bool.and_eq_true] at hsafe
      obtain ⟨hpc, hrest⟩ := hsafe
      cases f with
      | zero => rw [hlen] at hf; omega
      | succ f' =>
        show subWBF acCode vnT1 (f' + 1) W (c :: renderSan ts) =
          c :: renderR1 ts
        have hm : ∀ W', wbMatchAt acCode W' (c :: renderSan ts) = false :=
          wbMatchAt_head_ne (renderSan ts) (by decide) (plainChar_ne_A hpc)
        rw [subWBF_skip acCode vnT1 c (renderSan ts) f' W (hm W),
          ih f' (isWordChar c) (by rw [hlen] at hf; omega) hrest]

/-- Second restore pass on a safe half-restored token text: exactly the
`KT` blocks are restored to `Kiến thức`, recovering the original text. -/
theorem pass6_render : ∀ (ts : List Tok) (f : Nat) (W : Bool),
    (renderR1 ts).length ≤ f → safeToks W ts = true →
    subWBF ktCode vnT2 f W (renderR1 ts) = render ts := by
  intro ts
  induction ts with
  | nil => intro f W _ _; exact subWBF_nil ktCode vnT2 f W
  | cons t ts ih =>
    intro f W hf hsafe
    cases t with
    | t1 =>
      have hlen : (renderR1 (Tok.t1 :: ts)).length =
          vnT1.length + (renderR1 ts).length := by
        show (vnT1 ++ renderR1 ts).length = _
        simp
      have h7 : vnT1.length = 7 := by decide
      simp only [safeToks, Bool.and_eq_true] at hsafe
      obtain ⟨⟨_, _⟩, hrest⟩ := hsafe
      show subWBF ktCode vnT2 f W (vnT1 ++ renderR1 ts) =
        vnT1 ++ render ts
      rw [walkWB ktCode vnT2 (by decide) vnT1 (by decide) (by decide)
        f W (renderR1 ts) (by rw [hlen] at hf; omega)]
      rw [show isWordChar (vnT1.getLastD 'a') = true from by decide]
      rw [ih (f - vnT1.length) true (by rw [hlen] at hf; omega) hrest]
    | t2 =>
      have hlen : (renderR1 (Tok.t2 :: ts)).length =
          ktCode.length + (renderR1 ts).length := by
        show (ktCode ++ renderR1 ts).length = _
        simp
      have h2 : ktCode.length = 2 := by decide
      simp only [safeToks, Bool.and_eq_true] at hsafe
      obtain ⟨⟨hW, hhead⟩, hrest⟩ := hsafe
      have hWf : W = false := by
        cases W with
        | false => rfl
        | true => simp at hW
      subst hWf
      cases f with
      | zero => rw [hlen, h2] at hf; omega
      | succ f' =>
        show subWBF ktCode vnT2 (f' + 1) false (ktCode ++ renderR1 ts) =
          vnT2 ++ render ts
        have hm : wbMatchAt ktCode false (ktCode ++ renderR1 ts) = true :=
          wbMatchAt_intro ktCode false (renderR1 ts) (by decide) (by decide)
            (by rw [show isWordChar (ktCode.getLastD 'a') = true from by decide]
                exact tokHeadNonW_wbAfter_r1 ts hhead)
        rw [subWBF_match_front ktCode vnT2 (renderR1 ts) f' false
          (by decide) hm]
        rw [show isWordChar (ktCode.getLastD 'a') = true from by decide]
        rw [ih f' true (by rw [hlen, h2] at hf; omega) hrest]
    | ch c =>
      have hlen : (renderR1 (Tok.ch c :: ts)).length =
          (renderR1 ts).length + 1 := by
        show (([c] : List Char) ++ renderR1 ts).length = _
        simp [Nat.add_comm]
      simp only [safeToks, Bool.and_eq_true] at hsafe
      obtain ⟨hpc, hrest⟩ := hsafe
      cases f with
      | zero => rw [hlen] at hf; omega
      | succ f' =>
        show subWBF ktCode vnT2 (f' + 1) W (c :: renderR1 ts) =
          c :: render ts
        have hm : ∀ W', wbMatchAt ktCode W' (c :: renderR1 ts) = false :=
          wbMatchAt_head_ne (renderR1 ts) (by decide) (plainChar_ne_K hpc)
        rw [subWBF_skip ktCode vnT2 c (renderR1 ts) f' W (hm W),
          ih f' (isWordChar c) (by rw [hlen] at hf; omega) hrest]

/-- Claim C1, amended: for the default Term Map, the sanitize/restore round
trip is exact on every text assembled (as a safe token list) from the
first-declared casings of the terms and plain characters, with the terms
word-boundary delimited; the specification's worked example lies in this
class: `Anh chị học Kiến thức` sanitizes to `AC học KT` and restores
back. -/
theorem C1_roundtrip_canonical :
    (∀ ts : List Tok, safeToks false ts = true →
      reverse_sanitize_text (sanitize_text ⟨render ts⟩) = ⟨render ts⟩) ∧
      sanitize_text exInput = exSanitized ∧
      reverse_sanitize_text exSanitized = exInput := by
  refine ⟨?_, by decide, by decide⟩
  intro ts hsafe
  have hp1 : subCI vnT1 acCode (render ts) = renderM1 ts :=
    pass1_render ts (render ts).length false (Nat.le_refl _) hsafe
  have hp3 : subCI vnT2 ktCode (renderM1 ts) = renderSan ts :=
    pass3_render ts (renderM1 ts).length false (Nat.le_refl _) hsafe
  have hsan : (sanitize_text ⟨render ts⟩).data = renderSan ts := by
    rw [sanitize_text_data]
    show sanitizeWith CONFIDENTIAL_TERMS (render ts) = renderSan ts
    rw [sanitizeWith_default, hp1]
    have hocc1 : hasOccCI vnT1l (renderM1 ts) = false := by
      rw [← hp1, hasOccCI_congr (p := vnT1l) (q := vnT1) (by decide)]
      exact subCIF_kill vnT1 acCode (by decide) (by decide) (by decide)
        (by decide) (by decide) (render ts).length (render ts) (Nat.le_refl _)
    rw [show subCI vnT1l acCode (renderM1 ts) = renderM1 ts from
      subCIF_id_of_noOcc acCode hocc1 (renderM1 ts).length]
    rw [hp3]
    have hocc2 : hasOccCI vnT2l (renderSan ts) = false := by
      rw [← hp3, hasOccCI_congr (p := vnT2l) (q := vnT2) (by decide)]
      exact subCIF_kill vnT2 ktCode (by decide) (by decide) (by decide)
        (by decide) (by decide) (renderM1 ts).length (renderM1 ts)
        (Nat.le_refl _)
    exact subCIF_id_of_noOcc ktCode hocc2 (renderSan ts).length
  apply String.ext
  rw [reverse_default, hsan]
  rw [show subWB acCode vnT1 (renderSan ts) = renderR1 ts from
    pass5_render ts (renderSan ts).length false (Nat.le_refl _) hsafe]
  show subWB ktCode vnT2 (renderR1 ts) = render ts
  exact pass6_render ts (renderR1 ts).length false (Nat.le_refl _) hsafe

/-- Witness for the amended C1 at the specification's worked example. -/
theorem C1_roundtrip_witness :
    safeToks false exToks = true ∧ render exToks = exInput.data ∧
      reverse_sanitize_text (sanitize_text ⟨render exToks⟩) = ⟨render exToks⟩ :=
  ⟨by decide, by decide, C1_roundtrip_canonical.1 exToks (by decide)⟩
